import Mathlib

/-!
# Shallow embedding of the dcs query manager

Embedding of `cmd/dcs-web/querymanager.go` (repository `doublespring168/dcs`).

Modelling conventions:

* Go `float32` ranking scores are modelled as `ℚ`; every concrete score used in
  this development is a small dyadic or decimal fraction on which `float32`
  arithmetic in the source is exact.
* Go `int` counters (`FilesProcessed`, `FilesTotal`, with `-1` as the unknown
  sentinel) are modelled as `ℤ`.
* Go strings are compared bytewise; paths in this development are ASCII, so a
  characterwise comparison on `String.data` is identical.
* File writes are modelled by the value serialized: `createFromPointers` copies
  one byte range per pointer, so a written JSON array file is modelled as the
  list of pointers whose ranges it concatenates.  The byte `offset`/`length`
  bookkeeping of the spool files is not modelled; each pointer stands for its
  record.
* The per-query mutex discipline is modelled by sequential execution of the
  critical sections in program order; the `state[queryid]` map reads and writes
  inside `storeResult` are reproduced exactly (including the fact that a local
  copy `s` is written back to the map only inside the top-10 branch).
* The event bus (`event`, `addEvent`, `addEventMarshal`) lives in a different
  file of the repository that is not part of the source tree here; it is
  modelled from the spec (§4.8): an append-only per-query event log, where the
  empty marker payload appended by `finishQuery` signals end-of-stream and the
  query being done (§4.4 "mark the query done and broadcast a terminal event").
-/

-- Core marks the arithmetic on `Rat` irreducible; restore the default
-- transparency so that concrete runs of the embedded code can be evaluated by
-- `decide` (the kernel never cared about the reducibility hint).
set_option allowUnsafeReducibility true
attribute [semireducible] Rat.add Rat.mul Rat.sub Rat.div Rat.inv Rat.neg

namespace DcsQM

/-- Bytewise strict "less than" on character lists, as Go compares strings
(identical to Go's bytewise order on ASCII data). -/
def goStrLt : List Char → List Char → Bool
  | [], [] => false
  | [], _ :: _ => true
  | _ :: _, [] => false
  | a :: as, b :: bs => if a = b then goStrLt as bs else decide (a < b)

/-- One record decoded from a backend (struct `Result` in querymanager.go,
embedding the used fields of `dcsregexp.Match`: `Path`, `PathRank`, `Ranking`).
`rtype` is the Go `Type` discriminator field. -/
structure Result where
  rtype : String := ""
  path : String := ""
  pathRank : ℚ := 0
  ranking : ℚ := 0
  package : String := ""
  filesProcessed : ℤ := 0
  filesTotal : ℤ := 0
deriving DecidableEq, Repr

/-- The zero value of the Go `Result` struct: the ten slots of the results
buffer hold this value until a real result is stored in them. -/
def zeroResult : Result := {}

/-- Strict order `ByRanking.Less` (querymanager.go:107–115): ranking
descending; on equal rankings, path descending. -/
def byRankingLess (a b : Result) : Prop :=
  if a.ranking = b.ranking then goStrLt b.path.data a.path.data = true
  else b.ranking < a.ranking

/-- The non-strict closure `¬ ByRanking.Less b a` of `byRankingLess`: the
order in which `sort.Sort(ByRanking(combined))` leaves the slice sorted
(`a` may legally appear before `b`). -/
def byRankingLE (a b : Result) : Prop :=
  b.ranking < a.ranking ∨ (a.ranking = b.ranking ∧ goStrLt a.path.data b.path.data = false)

instance : DecidableRel byRankingLess := fun a b => by
  unfold byRankingLess; infer_instance

instance : DecidableRel byRankingLE := fun a b => by
  unfold byRankingLE; infer_instance

/-- A result pointer (struct `resultPointer`): locates one serialized record.
The byte `offset`/`length` fields are omitted (see the module docstring); the
interned `*string` package name is modelled as the string itself. -/
structure ResultPointer where
  backendidx : ℕ
  ranking : ℚ
  pathHash : ℕ
  packageName : String
deriving DecidableEq, Repr

/-- Strict order `pointerByRanking.Less` (querymanager.go:142–147): ranking
descending; on equal rankings, path hash descending. -/
def pointerLess (a b : ResultPointer) : Prop :=
  if a.ranking = b.ranking then b.pathHash < a.pathHash
  else b.ranking < a.ranking

/-- The non-strict closure `¬ pointerByRanking.Less b a`: the order in which
`sort.Sort(pointerByRanking(pointers))` leaves the slice sorted. -/
def pointerLE (a b : ResultPointer) : Prop :=
  b.ranking < a.ranking ∨ (a.ranking = b.ranking ∧ b.pathHash ≤ a.pathHash)

instance : DecidableRel pointerLess := fun a b => by
  unfold pointerLess; infer_instance

instance : DecidableRel pointerLE := fun a b => by
  unfold pointerLE; infer_instance

/-- 64-bit FNV-1 hash (`fnv.New64`; `io.WriteString(h, result.Path)`),
on the character codes of the path (bytes, for ASCII paths). -/
def fnv64 (bytes : List ℕ) : ℕ :=
  bytes.foldl (fun h b => ((h * 1099511628211) % 2 ^ 64) ^^^ (b % 256)) 14695981039346656037

/-- Events on the per-query event log.  The log itself is modelled from the
spec (§4.8, §2 EventBus); the payloads below carry the fields the embedded
code puts into them. -/
inductive GoEvent
  | resultEvent (r : Result)
  | errorEvent (errorType : String)
  | progressEvent (filesProcessed filesTotal : ℤ) (results : ℕ)
  | paginationEvent (resultPages : ℕ)
  | marker
deriving DecidableEq, Repr

/-- Per-query state (struct `queryState`).  `tempFiles` handles are not
modelled (their contents are reachable through the pointers); `query`,
`started` and the interning pool are irrelevant to the claims and omitted. -/
structure QueryState where
  done : Bool := false
  events : List GoEvent := []
  results : List Result := List.replicate 10 zeroResult
  filesTotal : List ℤ := []
  filesProcessed : List ℤ := []
  resultPages : ℕ := 0
  numResults : ℕ := 0
  resultPointers : List ResultPointer := []
  allPackages : List String := []
  allPackagesSorted : List String := []
  firstPathRank : ℚ := 0
deriving DecidableEq, Repr

/-- The fresh state installed by `maybeStartQuery` (querymanager.go:273–300):
zeroed results buffer, `filesTotal[i] = -1` for every backend. -/
def initialState (numBackends : ℕ) : QueryState :=
  { filesTotal := List.replicate numBackends (-1)
    filesProcessed := List.replicate numBackends 0 }

/-- Modelled from the spec: `addEvent` /`addEventMarshal` (defined in a
repository file outside the given source tree) append the event to the
per-query ordered log (§4.8). -/
def addEvent (s : QueryState) (e : GoEvent) : QueryState :=
  { s with events := s.events ++ [e] }

/-- `finishQuery` (querymanager.go:501–546): closes the per-backend files (not
modelled) and appends the empty marker payload `addEvent(queryid, []byte{},
nil)`.  Modelled from the spec for the part outside the source tree: the
marker is the end-of-stream signal that marks the query done (§4.4, §4.8). -/
def finishQuery (s : QueryState) : QueryState :=
  { s with events := s.events ++ [GoEvent.marker], done := true }

/-- `failQuery` (querymanager.go:492–499): a "failed" error event, then
`finishQuery`. -/
def failQuery (s : QueryState) : QueryState :=
  finishQuery (addEvent s (GoEvent.errorEvent "failed"))

/-- `strings.Index(s, sub)` for a one-character needle: index of the first
occurrence scanning left to right, `-1` if absent. -/
def goIndexAux (c : Char) : List Char → ℤ
  | [] => -1
  | x :: xs =>
    if x = c then 0
    else if goIndexAux c xs = -1 then -1 else goIndexAux c xs + 1

/-- `strings.Index(path, "_")`: index of the first underscore, `-1` if none
(character index; equal to Go's byte index on ASCII paths). -/
def goIndexUnderscore (path : String) : ℤ :=
  goIndexAux '_' path.data

/-- Go slicing `path[:i]`: defined only for `0 ≤ i ≤ len` (a negative bound
panics, which is how `storeResult` dies on a path without an underscore). -/
def goSliceTo (path : String) (i : ℤ) : Option String :=
  if 0 ≤ i ∧ i ≤ (path.data.length : ℤ) then some ⟨path.data.take i.toNat⟩ else none

/-- `result.Package = result.Path[:strings.Index(result.Path, "_")]`
(querymanager.go:417), with the Go panic on a missing underscore modelled as
`none`. -/
def goPackageOf (path : String) : Option String :=
  goSliceTo path (goIndexUnderscore path)

/-- The package prefix as a total function (the value `goPackageOf` yields
whenever it is defined). -/
def packagePart (path : String) : String :=
  ⟨path.data.takeWhile (· ≠ '_')⟩

/-- The first half of `storeResult` (querymanager.go:421–434): on a local copy
of the state, either combine the ranking (`FirstPathRank > 0`) or seed
`FirstPathRank` from this result's pre-rank.  Returns the (possibly
re-ranked) result together with the modified local copy. -/
def combineResult (s : QueryState) (r : Result) : Result × QueryState :=
  if 0 < s.firstPathRank then
    ({ r with ranking := r.pathRank + s.firstPathRank * (1 / 10) * r.ranking }, s)
  else
    (r, { s with firstPathRank := r.pathRank })

/-- The assignments at the top of `storeResult` (querymanager.go:415–417):
`result.Type = "result"` and the package prefix. -/
def prepResult (r : Result) : Result :=
  { r with rtype := "result", package := packagePart r.path }

/-- The result as it is stored by a `storeResult` call on state `s`: prepared,
with the combined ranking it receives there (the ranking recorded in the
pointer list and compared against the top-10 buffer). -/
def obsRes (s : QueryState) (r : Result) : Result :=
  (combineResult s (prepResult r)).1

/-- The body of `storeResult` (querymanager.go:414–490) given the package
prefix already computed.  Faithful to the source's use of the shared state
map: the local copy `s` (with the `FirstPathRank` update) is written back to
`state[queryid]` only inside the top-10 branch; the final pointer-append
section re-reads `state[queryid]`. -/
def storeResultCore (s0 : QueryState) (backendidx : ℕ) (res : Result) : QueryState :=
  let res1 : Result := prepResult res
  let c := combineResult s0 res1
  let res2 := c.1
  let s1 := c.2
  let worst := s1.results.getD 9 zeroResult
  -- `state[queryid]` after the conditional: written back only when the new
  -- ranking beats the current 10th entry.
  let s2 :=
    if worst.ranking < res2.ranking then
      let combined := List.insertionSort byRankingLE (s1.results ++ [res2])
      addEvent { s1 with results := combined.take 10 } (GoEvent.resultEvent res2)
    else s0
  -- the temp-file write, then the re-read of `state[queryid]` and the
  -- pointer/package/counter update under `stateMu`.
  { s2 with
    resultPointers := s2.resultPointers ++
      [{ backendidx := backendidx
         ranking := res2.ranking
         pathHash := fnv64 (res2.path.data.map Char.toNat)
         packageName := res2.package }]
    allPackages :=
      if res2.package ∈ s2.allPackages then s2.allPackages
      else s2.allPackages ++ [res2.package]
    numResults := s2.numResults + 1 }

/-- `storeResult` (querymanager.go:414): dies (Go slice panic) when the path
has no underscore, otherwise performs the state transition. -/
def storeResult (s : QueryState) (backendidx : ℕ) (res : Result) : Option QueryState :=
  match goPackageOf res.path with
  | none => none
  | some _ => some (storeResultCore s backendidx res)

example : goStrLt "pg_a1".data "pg_a9".data = true := by decide

example : goPackageOf "pkgX_foo.c" = some "pkgX" := by decide

example : goPackageOf "nounderscore" = none := by decide

example : (4 / 5 + (4 / 5) * (1 / 10) * (9 / 10) : ℚ) = 109 / 125 := by decide

example : fnv64 ("a".data.map Char.toNat) = 12638153115695167422 := by decide

/-- `ceil(a / b)` on naturals, the value of Go's
`int(math.Ceil(float64(a) / float64(b)))` (exact in `float64` at any
realistic result count). -/
def ceilDiv (a b : ℕ) : ℕ :=
  (a + b - 1) / b

/-- The number of results per page file (`resultsPerPage`, querymanager.go:659). -/
def resultsPerPage : ℕ := 10

/-- `resultsPerPackage` (querymanager.go:56). -/
def resultsPerPackage : ℕ := 2

/-- `packagesPerPage` (querymanager.go:55). -/
def packagesPerPage : ℕ := 5

/-- Association-list get for the `bypkg` map (Go map lookup). -/
def alGet (m : List (String × List ResultPointer)) (k : String) : Option (List ResultPointer) :=
  match m with
  | [] => none
  | (k', v) :: rest => if k' = k then some v else alGet rest k

/-- Association-list put for the `bypkg` map (Go map store). -/
def alPut (m : List (String × List ResultPointer)) (k : String) (v : List ResultPointer) :
    List (String × List ResultPointer) :=
  match m with
  | [] => [(k, v)]
  | (k', v') :: rest => if k' = k then (k, v) :: rest else (k', v') :: alPut rest k v

/-- One step of the per-package capping loop in `writeToDisk`
(querymanager.go:693–701): walk the ranked pointers, keep at most
`resultsPerPackage` entries per package, first-ranked wins. -/
def bypkgStep (m : List (String × List ResultPointer)) (p : ResultPointer) :
    List (String × List ResultPointer) :=
  let pkgresults := (alGet m p.packageName).getD []
  if resultsPerPackage ≤ pkgresults.length then m
  else alPut m p.packageName (pkgresults ++ [p])

/-- The files written by the persistence step.  A JSON array file built by
`createFromPointers` is modelled as the list of pointers it copies. -/
structure DiskOutput where
  packagesJson : Option (List String) := none
  pageFiles : List (List ResultPointer) := []
  pkgFiles : List (String × List ResultPointer) := []
deriving DecidableEq, Repr

/-- `writeToDisk` (querymanager.go:632–718): returns the state after the
persistence step together with the files written.  On an empty pointer list
the function returns immediately and writes nothing.  (The Go map iteration
over `bypkg` has unspecified order; `pkgFiles` keeps first-insertion key
order, and every property proved about it is order-insensitive.) -/
def writeToDisk (s : QueryState) : QueryState × DiskOutput :=
  if s.resultPointers = [] then (s, {})
  else
    let pointers := s.resultPointers
    let packages := s.allPackages
    let s1 := { s with resultPointers := [], allPackagesSorted := packages }
    let sorted := List.insertionSort pointerLE pointers
    let pages := ceilDiv pointers.length resultsPerPage
    let pageFiles := (List.range pages).map
      (fun page => (sorted.drop (page * resultsPerPage)).take resultsPerPage)
    let bypkg := sorted.foldl bypkgStep []
    let s2 := { s1 with resultPages := pages }
    -- `sendPaginationUpdate` (querymanager.go:397–412): event only when at
    -- least one page exists.
    let s3 := if 0 < pages then addEvent s2 (GoEvent.paginationEvent pages) else s2
    (s3, { packagesJson := some packages, pageFiles := pageFiles, pkgFiles := bypkg })

/-- The loop `for i := 0; i < len(backends); i++ { if s.filesTotal[i] == -1
{ allSet = false; break } }` (querymanager.go:727–733). -/
def allTotalsSet : List ℤ → Bool
  | [] => true
  | t :: rest => if t = -1 then false else allTotalsSet rest

/-- `storeProgress` (querymanager.go:720–771).  Returns the state after the
call and the files written when this update triggered the persistence step
(`none` when it did not).  I/O failure of `writeToDisk` is not modelled
(`failQuery` is unreachable in the model). -/
def storeProgress (s : QueryState) (backendidx : ℕ) (progress : Result) :
    QueryState × Option DiskOutput :=
  let ft := s.filesTotal.set backendidx progress.filesTotal
  let allSet := allTotalsSet ft
  let fp := s.filesProcessed.set backendidx progress.filesProcessed
  let filesProcessed := fp.sum
  let filesTotal := ft.sum
  let s1 := { s with filesTotal := ft, filesProcessed := fp }
  let wrote :=
    if allSet = true ∧ filesProcessed = filesTotal then some (writeToDisk s1) else none
  let s2 := (wrote.map Prod.fst).getD s1
  if allSet = true then
    let s3 := addEvent s2 (GoEvent.progressEvent filesProcessed filesTotal s.numResults)
    let s4 := if filesProcessed = filesTotal then finishQuery s3 else s3
    (s4, wrote.map Prod.snd)
  else (s2, wrote.map Prod.snd)

/-- The deferred exit check of `queryBackend` (querymanager.go:193–214): if
this backend's processed count does not equal its total, synthesize a
progress update with `processed = total = ` the best-known total (`0` when
the `-1` sentinel is still in place) and append a "backendunavailable" error
event. -/
def queryBackendExit (s : QueryState) (backendidx : ℕ) : QueryState :=
  let filesTotal := s.filesTotal.getD backendidx 0
  if s.filesProcessed.getD backendidx 0 = filesTotal then s
  else
    let ft := if filesTotal = -1 then 0 else filesTotal
    let s1 := (storeProgress s backendidx
      { rtype := "progress", filesProcessed := ft, filesTotal := ft }).1
    addEvent s1 (GoEvent.errorEvent "backendunavailable")

/-- The response of `PerPackageResultsHandler` (querymanager.go:773–870),
abstracted over the file system (`pkgFile name` is the content of
`pkg_<name>.json`). -/
inductive PerPackageResponse
  | noSuchQuery
  | notFinished
  | noSuchPage
  | ok (entries : List (String × List ResultPointer))
deriving DecidableEq, Repr

/-- `PerPackageResultsHandler` for a request on query page `pagenr`.
`st` is `state[queryid]` as observed after the bounded wait loop (the 60 s /
100 ms polling is real time and abstracted into which state the final
re-check sees: if `st.done` is still false the handler answers with the
"Query not finished yet." error instead of hanging). -/
def perPackageResults (st : Option QueryState) (pagenr : ℕ)
    (pkgFile : String → List ResultPointer) : PerPackageResponse :=
  match st with
  | none => PerPackageResponse.noSuchQuery
  | some s =>
    if s.done = false then PerPackageResponse.notFinished
    else
      let pages := ceilDiv s.allPackagesSorted.length packagesPerPage
      if pages ≤ pagenr then PerPackageResponse.noSuchPage
      else
        let slice := (s.allPackagesSorted.drop (pagenr * packagesPerPage)).take packagesPerPage
        PerPackageResponse.ok (slice.map (fun pkg => (pkg, pkgFile pkg)))

/-- Sequential processing of a list of result arrivals `(backendidx, result)`:
one interleaving of the backend streams, each arrival handled by
`storeResult` under the locks.  `none` as soon as one arrival panics. -/
def processAll (s : QueryState) : List (ℕ × Result) → Option QueryState
  | [] => some s
  | (b, r) :: rest =>
    match storeResult s b r with
    | none => none
    | some s' => processAll s' rest

/-- Total variant of `processAll` (agrees with it whenever every path has an
underscore). -/
def processAllCore (s : QueryState) : List (ℕ × Result) → QueryState
  | [] => s
  | (b, r) :: rest => processAllCore (storeResultCore s b r) rest

/-- The results "observed so far" along a run, with the combined ranking each
one was stored with (the value `storeResult` appends to the pointer list). -/
def observedResults (s : QueryState) : List (ℕ × Result) → List Result
  | [] => []
  | (b, r) :: rest => obsRes s r :: observedResults (storeResultCore s b r) rest

/-- Arrival sequence on which the literal top-10 claim fails: one result
stored at ranking `1/2`, then ten results all stored at ranking `1/4` (the
pre-ranks are `0`, so every stored ranking is the raw post-rank and no
rounding is involved).  The eleventh arrival, path `pg_a9`, exactly ties the
then-worst buffer entry `pg_a0`; sorting by (ranking desc, path desc) puts
`pg_a9` into the top ten, but the strict `>` admission test drops it. -/
def c1Arrivals : List (ℕ × Result) :=
  [(0, { path := "pg_q", ranking := mkRat 1 2 }),
   (0, { path := "pg_a0", ranking := mkRat 1 4 }),
   (0, { path := "pg_a1", ranking := mkRat 1 4 }),
   (0, { path := "pg_a2", ranking := mkRat 1 4 }),
   (0, { path := "pg_a3", ranking := mkRat 1 4 }),
   (0, { path := "pg_a4", ranking := mkRat 1 4 }),
   (0, { path := "pg_a5", ranking := mkRat 1 4 }),
   (0, { path := "pg_a6", ranking := mkRat 1 4 }),
   (0, { path := "pg_a7", ranking := mkRat 1 4 }),
   (0, { path := "pg_a8", ranking := mkRat 1 4 }),
   (0, { path := "pg_a9", ranking := mkRat 1 4 })]

/-- A small two-backend arrival sequence with distinct positive rankings,
used to exercise the proved theorems on concrete data. -/
def smallArrivals : List (ℕ × Result) :=
  [(0, { path := "pkgA_one.c", ranking := mkRat 1 2 }),
   (1, { path := "pkgB_two.c", ranking := mkRat 1 4 })]

/-- A state holding four result pointers in two packages, for exercising the
per-package capping on concrete data. -/
def c5State : QueryState :=
  { initialState 1 with
    resultPointers :=
      [{ backendidx := 0, ranking := mkRat 1 2, pathHash := 10, packageName := "pkgA" },
       { backendidx := 0, ranking := mkRat 1 4, pathHash := 20, packageName := "pkgA" },
       { backendidx := 0, ranking := mkRat 3 4, pathHash := 5, packageName := "pkgA" },
       { backendidx := 0, ranking := mkRat 1 8, pathHash := 7, packageName := "pkgB" }] }

/-- A finished query state with six frozen package names, for exercising the
per-package page handler on concrete data. -/
def c9State : QueryState :=
  { initialState 1 with
    done := true
    allPackagesSorted := ["pkgA", "pkgB", "pkgC", "pkgD", "pkgE", "pkgF"] }

/-- The first §8 example result: path `pkgX_foo.c`, pre-rank 0.8,
post-rank 0.5. -/
def c3First : Result :=
  { path := "pkgX_foo.c", pathRank := 4 / 5, ranking := 1 / 2 }

/-- The second §8 example result: path `pkgX_bar.c`, pre-rank 0.8,
post-rank 0.9. -/
def c3Second : Result :=
  { path := "pkgX_bar.c", pathRank := 4 / 5, ranking := 9 / 10 }

/-- A state holding twelve result pointers, for exercising the pagination of
the persistence step on concrete data. -/
def c4State : QueryState :=
  { initialState 1 with
    resultPointers := (List.range 12).map
      (fun i => { backendidx := 0, ranking := mkRat 1 (i + 2), pathHash := i,
                  packageName := "pkgA" }) }

/-! ## Order-theoretic toolkit

`sort.Sort` leaves a slice sorted with respect to the non-strict closure
`¬ Less b a` of its `Less` relation; for the `ByRanking` and
`pointerByRanking` orders this closure is total and transitive, and on lists
whose entries are pairwise distinguishable it determines the sorted list
uniquely.  `List.insertionSort` with the closure is therefore a faithful
model of the `sort.Sort` calls. -/

theorem goStrLt_asymm : ∀ {a b : List Char}, goStrLt a b = true → goStrLt b a = false
  | [], [], h => by simp [goStrLt] at h
  | [], _ :: _, _ => by simp [goStrLt]
  | _ :: _, [], h => by simp [goStrLt] at h
  | x :: xs, y :: ys, h => by
    by_cases hxy : x = y
    · subst hxy
      simp only [goStrLt, if_pos rfl] at h ⊢
      exact goStrLt_asymm h
    · simp only [goStrLt, if_neg hxy, decide_eq_true_eq] at h
      simp only [goStrLt, if_neg (Ne.symm hxy), decide_eq_false_iff_not]
      exact lt_asymm h

theorem goStrLt_total (a b : List Char) : goStrLt a b = false ∨ goStrLt b a = false := by
  by_cases h : goStrLt a b = true
  · exact Or.inr (goStrLt_asymm h)
  · exact Or.inl (Bool.eq_false_iff.mpr h)

theorem goStrLt_ge_trans : ∀ {a b c : List Char},
    goStrLt a b = false → goStrLt b c = false → goStrLt a c = false
  | a, _, [], _, _ => by cases a <;> simp [goStrLt]
  | _, [], _ :: _, _, h₂ => by simp [goStrLt] at h₂
  | [], _ :: _, _ :: _, h₁, _ => by simp [goStrLt] at h₁
  | x :: xs, y :: ys, c :: cs, h₁, h₂ => by
    simp only [goStrLt] at h₁ h₂ ⊢
    by_cases hxy : x = y <;> by_cases hyc : y = c
    · subst hxy; subst hyc
      simp only [if_pos rfl] at h₁ h₂ ⊢
      exact goStrLt_ge_trans h₁ h₂
    · subst hxy
      simp only [if_pos rfl, if_neg hyc, decide_eq_false_iff_not, not_lt] at h₂ ⊢
      exact h₂
    · subst hyc
      simp only [if_pos rfl, if_neg hxy, decide_eq_false_iff_not, not_lt] at h₁ ⊢
      exact h₁
    · simp only [if_neg hxy, if_neg hyc, decide_eq_false_iff_not, not_lt] at h₁ h₂
      by_cases hxc : x = c
      · subst hxc
        exact absurd (lt_of_le_of_lt h₂ (lt_of_le_of_ne h₁ (Ne.symm hxy))) (lt_irrefl x)
      · simp only [if_neg hxc, decide_eq_false_iff_not, not_lt]
        exact le_trans h₂ h₁

theorem goStrLt_antisymm : ∀ {a b : List Char},
    goStrLt a b = false → goStrLt b a = false → a = b
  | [], [], _, _ => rfl
  | [], _ :: _, h₁, _ => by simp [goStrLt] at h₁
  | _ :: _, [], _, h₂ => by simp [goStrLt] at h₂
  | x :: xs, y :: ys, h₁, h₂ => by
    by_cases hxy : x = y
    · subst hxy
      simp only [goStrLt, if_pos rfl] at h₁ h₂
      rw [goStrLt_antisymm h₁ h₂]
    · simp only [goStrLt, if_neg hxy, if_neg (Ne.symm hxy),
        decide_eq_false_iff_not, not_lt] at h₁ h₂
      exact absurd (le_antisymm h₂ h₁) hxy

instance : IsTotal Result byRankingLE where
  total a b := by
    rcases lt_trichotomy a.ranking b.ranking with h | h | h
    · exact Or.inr (Or.inl h)
    · rcases goStrLt_total a.path.data b.path.data with hs | hs
      · exact Or.inl (Or.inr ⟨h, hs⟩)
      · exact Or.inr (Or.inr ⟨h.symm, hs⟩)
    · exact Or.inl (Or.inl h)

instance : IsTrans Result byRankingLE where
  trans a b c hab hbc := by
    rcases hab with hab | ⟨hab, hab'⟩ <;> rcases hbc with hbc | ⟨hbc, hbc'⟩
    · exact Or.inl (lt_trans hbc hab)
    · exact Or.inl (by rw [← hbc]; exact hab)
    · exact Or.inl (by rw [hab]; exact hbc)
    · exact Or.inr ⟨hab.trans hbc, goStrLt_ge_trans hab' hbc'⟩

instance : IsTotal ResultPointer pointerLE where
  total a b := by
    rcases lt_trichotomy a.ranking b.ranking with h | h | h
    · exact Or.inr (Or.inl h)
    · rcases le_total a.pathHash b.pathHash with hs | hs
      · exact Or.inr (Or.inr ⟨h.symm, hs⟩)
      · exact Or.inl (Or.inr ⟨h, hs⟩)
    · exact Or.inl (Or.inl h)

instance : IsTrans ResultPointer pointerLE where
  trans a b c hab hbc := by
    rcases hab with hab | ⟨hab, hab'⟩ <;> rcases hbc with hbc | ⟨hbc, hbc'⟩
    · exact Or.inl (lt_trans hbc hab)
    · exact Or.inl (by rw [← hbc]; exact hab)
    · exact Or.inl (by rw [hab]; exact hbc)
    · exact Or.inr ⟨hab.trans hbc, le_trans hbc' hab'⟩

/-- Two sorted lists that are permutations of each other are equal, provided
the order relation is antisymmetric on the elements actually present. -/
theorem eq_of_perm_of_sorted_on {α : Type} {r : α → α → Prop} :
    ∀ {l₁ l₂ : List α}, l₁.Perm l₂ → l₁.Sorted r → l₂.Sorted r →
      (∀ a ∈ l₁, ∀ b ∈ l₁, r a b → r b a → a = b) → l₁ = l₂
  | [], l₂, hp, _, _, _ => hp.nil_eq
  | a :: t₁, [], hp, _, _, _ => by
    exact absurd hp.length_eq (by simp)
  | a :: t₁, b :: t₂, hp, hs₁, hs₂, hanti => by
    have hab : a = b := by
      by_cases hne : a = b
      · exact hne
      · have hbmem : b ∈ a :: t₁ := hp.mem_iff.mpr (List.mem_cons_self b t₂)
        have hamem : a ∈ b :: t₂ := hp.mem_iff.mp (List.mem_cons_self a t₁)
        have hrab : r a b := by
          rcases List.mem_cons.mp hbmem with h | h
          · exact absurd h.symm hne
          · exact (List.sorted_cons.mp hs₁).1 b h
        have hrba : r b a := by
          rcases List.mem_cons.mp hamem with h | h
          · exact absurd h hne
          · exact (List.sorted_cons.mp hs₂).1 a h
        exact hanti a (List.mem_cons_self a t₁) b hbmem hrab hrba
    subst hab
    have htp : t₁.Perm t₂ := hp.cons_inv
    have := eq_of_perm_of_sorted_on htp (List.sorted_cons.mp hs₁).2 (List.sorted_cons.mp hs₂).2
      (fun x hx y hy => hanti x (List.mem_cons_of_mem a hx) y (List.mem_cons_of_mem a hy))
    rw [this]

/-- Inserting into a truncated sorted prefix and truncating again agrees with
inserting into the full list and truncating. -/
theorem take_orderedInsert_take {α : Type} (r : α → α → Prop) [DecidableRel r] (x : α) :
    ∀ (l : List α) (k : ℕ),
      ((l.take k).orderedInsert r x).take k = (l.orderedInsert r x).take k
  | _, 0 => by simp
  | [], k + 1 => by simp
  | b :: l, k + 1 => by
    simp only [List.take_succ_cons, List.orderedInsert]
    by_cases h : r x b
    · simp only [if_pos h, List.take_succ_cons, List.cons.injEq, true_and]
      have hbl : b :: l.take k = (b :: l).take (k + 1) := by simp
      rw [hbl, List.take_take, Nat.min_eq_left (Nat.le_succ k)]
    · simp only [if_neg h, List.take_succ_cons, List.cons.injEq, true_and]
      exact take_orderedInsert_take r x l k

/-- If the new element sorts below everything in the first `k` positions, the
first `k` positions survive an ordered insertion unchanged. -/
theorem take_orderedInsert_of_bot {α : Type} (r : α → α → Prop) [DecidableRel r] (x : α) :
    ∀ (l : List α) (k : ℕ), k ≤ l.length → (∀ y ∈ l.take k, ¬ r x y) →
      (l.orderedInsert r x).take k = l.take k
  | _, 0, _, _ => by simp
  | [], k + 1, hk, _ => by simp at hk
  | b :: l, k + 1, hk, h => by
    have hxb : ¬ r x b := h b (by simp)
    simp only [List.orderedInsert, if_neg hxb, List.take_succ_cons, List.cons.injEq, true_and]
    exact take_orderedInsert_of_bot r x l k (by simpa using hk)
      (fun y hy => h y (by simp only [List.take_succ_cons, List.mem_cons]; exact Or.inr hy))

/-- Ordered insertion into `l₁ ++ l₂` stays inside `l₁` when the new element
sorts at or above everything in `l₂`. -/
theorem orderedInsert_append_of_le {α : Type} (r : α → α → Prop) [DecidableRel r] (x : α) :
    ∀ (l₁ l₂ : List α), (∀ y ∈ l₂, r x y) →
      (l₁ ++ l₂).orderedInsert r x = l₁.orderedInsert r x ++ l₂
  | [], l₂, h => by
    cases l₂ with
    | nil => simp
    | cons z t => simp [List.orderedInsert, if_pos (h z (by simp))]
  | b :: l₁, l₂, h => by
    simp only [List.cons_append, List.orderedInsert]
    by_cases hxb : r x b
    · simp [if_pos hxb]
    · simp only [if_neg hxb, List.cons_append, List.cons.injEq, true_and]
      exact orderedInsert_append_of_le r x l₁ l₂ h

/-- `insertionSort` of any permutation of `x :: M`, for `M` already sorted, is
the ordered insertion of `x` into `M` (uniqueness of the sorted permutation on
pairwise-distinguishable elements). -/
theorem insertionSort_eq_orderedInsert {α : Type} {r : α → α → Prop} [DecidableRel r]
    [IsTotal α r] [IsTrans α r] {x : α} {l M : List α}
    (hperm : l.Perm (x :: M)) (hM : M.Sorted r)
    (hanti : ∀ a ∈ x :: M, ∀ b ∈ x :: M, r a b → r b a → a = b) :
    List.insertionSort r l = M.orderedInsert r x := by
  apply eq_of_perm_of_sorted_on
  · exact (List.perm_insertionSort r l).trans (hperm.trans (List.perm_orderedInsert r x M).symm)
  · exact List.sorted_insertionSort r l
  · exact hM.orderedInsert x M
  · intro a ha b hb
    have ha' : a ∈ x :: M := hperm.mem_iff.mp ((List.mem_insertionSort r).mp ha)
    have hb' : b ∈ x :: M := hperm.mem_iff.mp ((List.mem_insertionSort r).mp hb)
    exact hanti a ha' b hb'

theorem getD_replicate_self {α : Type} (a : α) : ∀ (k i : ℕ), (List.replicate k a).getD i a = a
  | 0, _ => by simp [List.getD]
  | _ + 1, 0 => by simp
  | k + 1, i + 1 => by
    simp only [List.replicate, List.getD_cons_succ]
    exact getD_replicate_self a k i

theorem getD_take_lt {α : Type} (l : List α) (d : α) {k i : ℕ} (h : i < k) :
    (l.take k).getD i d = l.getD i d := by
  simp [List.getD_eq_getElem?_getD, List.getElem?_take_of_lt h]

theorem getD_mem_of_lt {α : Type} (l : List α) (d : α) {i : ℕ} (h : i < l.length) :
    l.getD i d ∈ l := by
  rw [List.getD_eq_getElem l d h]
  exact List.getElem_mem h

/-- The ranking of the zero-valued `Result` is `0`. -/
theorem zeroResult_ranking : zeroResult.ranking = 0 := rfl

/-- On lists whose members are either drawn from a bank of pairwise
ranking-distinct, positively ranked results or are the zero value, the
`ByRanking` closure is antisymmetric. -/
theorem byRankingLE_antisym_on {real : List Result}
    (hdist : real.Pairwise (fun a c => a.ranking ≠ c.ranking))
    (hpos : ∀ y ∈ real, 0 < y.ranking) {L : List Result}
    (hmem : ∀ y ∈ L, y ∈ real ∨ y = zeroResult) :
    ∀ a ∈ L, ∀ c ∈ L, byRankingLE a c → byRankingLE c a → a = c := by
  have hinj : ∀ a ∈ real, ∀ c ∈ real, a.ranking = c.ranking → a = c := by
    intro a ha c hc hr
    by_contra hne
    exact hdist.forall (fun _ _ h => (h ∘ Eq.symm)) ha hc hne hr
  intro a ha c hc hac hca
  have hr : a.ranking = c.ranking := by
    rcases hac with h | ⟨h, _⟩
    · rcases hca with h' | ⟨h', _⟩
      · exact absurd h' (lt_asymm h)
      · exact h'.symm
    · exact h
  rcases hmem a ha with hra | hza <;> rcases hmem c hc with hrc | hzc
  · exact hinj a hra c hrc hr
  · exact absurd (hr ▸ hpos a hra) (by rw [hzc, zeroResult_ranking]; exact lt_irrefl 0)
  · exact absurd (hr.symm ▸ hpos c hrc) (by rw [hza, zeroResult_ranking]; exact lt_irrefl 0)
  · rw [hza, hzc]

/-- The top-10 buffer the spec prescribes after observing `obs`: all observed
results, sorted by (combined ranking descending, path descending), first ten,
padded to ten entries with the zero value (as the Go `[10]Result` array is). -/
def bufferSpec (obs : List Result) : List Result :=
  (List.insertionSort byRankingLE obs ++ List.replicate 10 zeroResult).take 10

theorem bufferSpec_small {obs : List Result} (h : obs.length ≤ 10) :
    bufferSpec obs =
      List.insertionSort byRankingLE obs ++ List.replicate (10 - obs.length) zeroResult := by
  unfold bufferSpec
  rw [List.take_append_eq_append_take, List.take_of_length_le (by simpa using h),
    List.length_insertionSort, List.take_replicate]
  congr 2
  omega

theorem bufferSpec_large {obs : List Result} (h : 10 ≤ obs.length) :
    bufferSpec obs = (List.insertionSort byRankingLE obs).take 10 := by
  unfold bufferSpec
  rw [List.take_append_eq_append_take, List.length_insertionSort]
  have h0 : 10 - obs.length = 0 := by omega
  rw [h0]
  simp

theorem combineResult_snd_results (s : QueryState) (r : Result) :
    (combineResult s r).2.results = s.results := by
  unfold combineResult
  split <;> rfl

/-- The effect of one `storeResult` call on the ten-slot results buffer. -/
theorem storeResultCore_results (s : QueryState) (b : ℕ) (res : Result) :
    (storeResultCore s b res).results =
      if (s.results.getD 9 zeroResult).ranking < (obsRes s res).ranking then
        (List.insertionSort byRankingLE (s.results ++ [obsRes s res])).take 10
      else s.results := by
  unfold storeResultCore obsRes
  simp only [combineResult_snd_results, addEvent]
  split <;> rfl

/-- The combinatorial heart of the top-10 invariant: one buffer update step
preserves "buffer = spec top ten", provided the candidate's ranking is
positive and distinct from all rankings observed before. -/
theorem bufferSpec_take_step (obs : List Result) (x : Result)
    (hdist : (obs ++ [x]).Pairwise (fun a c => a.ranking ≠ c.ranking))
    (hpos : ∀ y ∈ obs ++ [x], 0 < y.ranking) :
    (if ((bufferSpec obs).getD 9 zeroResult).ranking < x.ranking then
        (List.insertionSort byRankingLE (bufferSpec obs ++ [x])).take 10
      else bufferSpec obs) = bufferSpec (obs ++ [x]) := by
  have hLsorted : (List.insertionSort byRankingLE obs).Sorted byRankingLE :=
    List.sorted_insertionSort byRankingLE obs
  have hLperm : (List.insertionSort byRankingLE obs).Perm obs :=
    List.perm_insertionSort byRankingLE obs
  have hLlen : (List.insertionSort byRankingLE obs).length = obs.length :=
    List.length_insertionSort byRankingLE obs
  have hxpos : 0 < x.ranking := hpos x (by simp)
  have hposL : ∀ y ∈ List.insertionSort byRankingLE obs, 0 < y.ranking := fun y hy =>
    hpos y (List.mem_append_left _ (hLperm.mem_iff.mp hy))
  have hanti : ∀ (M : List Result), (∀ y ∈ M, y ∈ obs ++ [x] ∨ y = zeroResult) →
      ∀ a ∈ M, ∀ c ∈ M, byRankingLE a c → byRankingLE c a → a = c :=
    fun M hM => byRankingLE_antisym_on hdist hpos hM
  have hsorted' : List.insertionSort byRankingLE (obs ++ [x]) =
      (List.insertionSort byRankingLE obs).orderedInsert byRankingLE x := by
    apply insertionSort_eq_orderedInsert
    · exact (List.perm_append_singleton x obs).trans ((hLperm.symm).cons x)
    · exact hLsorted
    · apply hanti
      intro y hy
      rcases List.mem_cons.mp hy with rfl | hy
      · exact Or.inl (by simp)
      · exact Or.inl (List.mem_append_left _ (hLperm.mem_iff.mp hy))
  by_cases hn : obs.length ≤ 9
  · -- fewer than ten real results: slot 9 holds the zero value and is beaten
    have hspec : bufferSpec obs =
        List.insertionSort byRankingLE obs ++ List.replicate (10 - obs.length) zeroResult :=
      bufferSpec_small (by omega)
    have hworst : (bufferSpec obs).getD 9 zeroResult = zeroResult := by
      rw [hspec, List.getD_append_right _ _ _ _ (by omega)]
      exact getD_replicate_self zeroResult _ _
    rw [hworst, zeroResult_ranking, if_pos hxpos]
    have hins : List.insertionSort byRankingLE (bufferSpec obs ++ [x]) =
        (List.insertionSort byRankingLE obs ++
          List.replicate (10 - obs.length) zeroResult).orderedInsert byRankingLE x := by
      apply insertionSort_eq_orderedInsert
      · rw [hspec]
        exact List.perm_append_singleton x _
      · rw [List.Sorted, List.pairwise_append]
        refine ⟨hLsorted, ?_, ?_⟩
        · exact List.pairwise_replicate.mpr (Or.inr (Or.inr ⟨rfl, rfl⟩))
        · intro a ha z hz
          rw [List.eq_of_mem_replicate hz]
          exact Or.inl (by rw [zeroResult_ranking]; exact hposL a ha)
      · apply hanti
        intro y hy
        rcases List.mem_cons.mp hy with rfl | hy
        · exact Or.inl (by simp)
        · rcases List.mem_append.mp hy with hy | hy
          · exact Or.inl (List.mem_append_left _ (hLperm.mem_iff.mp hy))
          · exact Or.inr (List.eq_of_mem_replicate hy)
    rw [hins, orderedInsert_append_of_le _ x _ _ (fun z hz => by
      rw [List.eq_of_mem_replicate hz]
      exact Or.inl (by rw [zeroResult_ranking]; exact hxpos))]
    rw [bufferSpec_small (by simp; omega), hsorted']
    rw [List.take_append_eq_append_take,
      List.take_of_length_le (by rw [List.orderedInsert_length]; omega),
      List.orderedInsert_length, List.take_replicate]
    congr 2
    simp only [List.length_append, List.length_cons, List.length_nil]
    omega
  · -- ten real results in the buffer
    push_neg at hn
    have hspec : bufferSpec obs = (List.insertionSort byRankingLE obs).take 10 :=
      bufferSpec_large (by omega)
    have h9 : 9 < (List.insertionSort byRankingLE obs).length := by omega
    have hworst : (bufferSpec obs).getD 9 zeroResult =
        (List.insertionSort byRankingLE obs).getD 9 zeroResult := by
      rw [hspec, getD_take_lt _ _ (by omega)]
    have hwmem : (List.insertionSort byRankingLE obs).getD 9 zeroResult ∈
        List.insertionSort byRankingLE obs := getD_mem_of_lt _ _ h9
    have hwobs : (List.insertionSort byRankingLE obs).getD 9 zeroResult ∈ obs :=
      hLperm.mem_iff.mp hwmem
    have hwx : ((List.insertionSort byRankingLE obs).getD 9 zeroResult).ranking ≠ x.ranking :=
      (List.pairwise_append.mp hdist).2.2 _ hwobs x (by simp)
    have hRHS : bufferSpec (obs ++ [x]) =
        ((List.insertionSort byRankingLE obs).orderedInsert byRankingLE x).take 10 := by
      rw [bufferSpec_large (by simp; omega), hsorted']
    rw [hworst, hRHS]
    by_cases hc : ((List.insertionSort byRankingLE obs).getD 9 zeroResult).ranking < x.ranking
    · rw [if_pos hc]
      have hins : List.insertionSort byRankingLE (bufferSpec obs ++ [x]) =
          ((List.insertionSort byRankingLE obs).take 10).orderedInsert byRankingLE x := by
        apply insertionSort_eq_orderedInsert
        · rw [hspec]
          exact List.perm_append_singleton x _
        · exact hLsorted.sublist (List.take_sublist _ _)
        · apply hanti
          intro y hy
          rcases List.mem_cons.mp hy with rfl | hy
          · exact Or.inl (by simp)
          · exact Or.inl (List.mem_append_left _
              (hLperm.mem_iff.mp ((List.take_sublist _ _).mem hy)))
      rw [hins, take_orderedInsert_take]
    · rw [if_neg hc]
      have hxw : x.ranking < ((List.insertionSort byRankingLE obs).getD 9 zeroResult).ranking :=
        lt_of_le_of_ne (not_lt.mp hc) (Ne.symm hwx)
      rw [hspec]
      symm
      apply take_orderedInsert_of_bot _ x _ 10 (by omega)
      intro y hy hxy
      have hsplit : (List.insertionSort byRankingLE obs).take 10 =
          (List.insertionSort byRankingLE obs).take 9 ++
            [(List.insertionSort byRankingLE obs).getD 9 zeroResult] := by
        rw [List.getD_eq_getElem _ zeroResult h9, List.take_succ, List.getElem?_eq_getElem h9]
        rfl
      have hwy : ((List.insertionSort byRankingLE obs).getD 9 zeroResult).ranking ≤ y.ranking := by
        rw [hsplit] at hy
        rcases List.mem_append.mp hy with hy | hy
        · have hsorted10 : ((List.insertionSort byRankingLE obs).take 10).Sorted byRankingLE :=
            hLsorted.sublist (List.take_sublist _ _)
          rw [hsplit, List.Sorted, List.pairwise_append] at hsorted10
          have := hsorted10.2.2 y hy ((List.insertionSort byRankingLE obs).getD 9 zeroResult)
            (List.mem_singleton_self _)
          rcases this with h | ⟨h, _⟩
          · exact le_of_lt h
          · exact le_of_eq h.symm
        · rw [List.mem_singleton.mp hy]
      rcases hxy with h | ⟨h, _⟩
      · exact absurd (lt_of_lt_of_le hxw hwy) (lt_asymm h)
      · exact absurd h (ne_of_lt (lt_of_lt_of_le hxw hwy))

/-- One `storeResultCore` call preserves the top-10 invariant. -/
theorem bufferSpec_step (s : QueryState) (obs : List Result) (b : ℕ) (res : Result)
    (hbuf : s.results = bufferSpec obs)
    (hdist : (obs ++ [obsRes s res]).Pairwise (fun a c => a.ranking ≠ c.ranking))
    (hpos : ∀ y ∈ obs ++ [obsRes s res], 0 < y.ranking) :
    (storeResultCore s b res).results = bufferSpec (obs ++ [obsRes s res]) := by
  rw [storeResultCore_results, hbuf]
  exact bufferSpec_take_step obs (obsRes s res) hdist hpos

/-- The top-10 invariant along any arrival sequence. -/
theorem bufferSpec_invariant :
    ∀ (arr : List (ℕ × Result)) (s : QueryState) (obs : List Result),
      s.results = bufferSpec obs →
      (obs ++ observedResults s arr).Pairwise (fun a c => a.ranking ≠ c.ranking) →
      (∀ y ∈ obs ++ observedResults s arr, 0 < y.ranking) →
      (processAllCore s arr).results = bufferSpec (obs ++ observedResults s arr)
  | [], s, obs, hbuf, _, _ => by
    simpa [processAllCore, observedResults] using hbuf
  | (b, r) :: rest, s, obs, hbuf, hdist, hpos => by
    have hobs : observedResults s ((b, r) :: rest) =
        obsRes s r :: observedResults (storeResultCore s b r) rest := rfl
    have hassoc : obs ++ observedResults s ((b, r) :: rest) =
        (obs ++ [obsRes s r]) ++ observedResults (storeResultCore s b r) rest := by
      rw [hobs, List.append_assoc, List.singleton_append]
    rw [hassoc] at hdist hpos ⊢
    have hsub : (obs ++ [obsRes s r]).Sublist
        ((obs ++ [obsRes s r]) ++ observedResults (storeResultCore s b r) rest) :=
      List.sublist_append_left _ _
    have hstep := bufferSpec_step s obs b r hbuf (hdist.sublist hsub)
      (fun y hy => hpos y (hsub.mem hy))
    exact bufferSpec_invariant rest (storeResultCore s b r) (obs ++ [obsRes s r]) hstep hdist hpos

theorem goIndexAux_of_not_mem {c : Char} : ∀ {l : List Char}, c ∉ l → goIndexAux c l = -1
  | [], _ => rfl
  | x :: xs, h => by
    have hx : ¬ x = c := fun e => h (e ▸ List.mem_cons_self x xs)
    have hxs : goIndexAux c xs = -1 :=
      goIndexAux_of_not_mem (fun hm => h (List.mem_cons_of_mem x hm))
    simp [goIndexAux, if_neg hx, hxs]

theorem goIndexAux_of_mem {c : Char} : ∀ {l : List Char}, c ∈ l →
    goIndexAux c l = ((l.takeWhile (· ≠ c)).length : ℤ)
  | x :: xs, h => by
    by_cases hx : x = c
    · subst hx
      simp [goIndexAux, List.takeWhile_cons]
    · have hmem : c ∈ xs := by
        rcases List.mem_cons.mp h with h' | h'
        · exact absurd h'.symm hx
        · exact h'
      have hxs := goIndexAux_of_mem hmem
      have hne : goIndexAux c xs ≠ -1 := by
        rw [hxs]
        omega
      have htw : (x :: xs).takeWhile (· ≠ c) = x :: xs.takeWhile (· ≠ c) := by
        simp [List.takeWhile_cons, hx]
      simp only [goIndexAux, if_neg hx, if_neg hne, hxs, htw, List.length_cons]
      push_cast
      ring

/-- `result.Path[:strings.Index(result.Path, "_")]` succeeds exactly when the
path has an underscore, and then yields the prefix before the first one. -/
theorem goPackageOf_eq (p : String) :
    goPackageOf p = if '_' ∈ p.data then some (packagePart p) else none := by
  unfold goPackageOf goSliceTo goIndexUnderscore packagePart
  by_cases h : '_' ∈ p.data
  · rw [if_pos h, goIndexAux_of_mem h]
    have hpre : p.data.takeWhile (· ≠ '_') <+: p.data := List.takeWhile_prefix _
    have hle : (p.data.takeWhile (· ≠ '_')).length ≤ p.data.length := hpre.length_le
    rw [if_pos ⟨by positivity, by exact_mod_cast hle⟩]
    congr 2
    rw [Int.toNat_natCast]
    exact (List.prefix_iff_eq_take.mp hpre).symm
  · rw [if_neg h, goIndexAux_of_not_mem h]
    norm_num

theorem storeResult_eq_some {s : QueryState} {b : ℕ} {r : Result} (h : '_' ∈ r.path.data) :
    storeResult s b r = some (storeResultCore s b r) := by
  unfold storeResult
  rw [goPackageOf_eq, if_pos h]

theorem processAll_eq_some :
    ∀ (arr : List (ℕ × Result)) (s : QueryState), (∀ p ∈ arr, '_' ∈ p.2.path.data) →
      processAll s arr = some (processAllCore s arr)
  | [], _, _ => rfl
  | (b, r) :: rest, s, h => by
    have hr : '_' ∈ r.path.data := h (b, r) (List.mem_cons_self _ _)
    unfold processAll processAllCore
    rw [storeResult_eq_some hr]
    exact processAll_eq_some rest _ (fun p hp => h p (List.mem_cons_of_mem _ hp))

/-! ## Claim C1: the top-10 buffer invariant -/

set_option maxRecDepth 40000 in
/-- **C1, counterexample.**  On the concrete arrival sequence `c1Arrivals`
every `storeResult` call succeeds, yet the final ten-slot buffer differs from
the first ten of all observed results sorted by (combined ranking descending,
path descending): the boundary tie `pg_a9` belongs to the spec's top ten but
the buffer still holds `pg_a0`.  This refutes the claim as stated. -/
theorem C1_top10_counterexample :
    processAll (initialState 1) c1Arrivals = some (processAllCore (initialState 1) c1Arrivals) ∧
      (processAllCore (initialState 1) c1Arrivals).results ≠
        (List.insertionSort byRankingLE (observedResults (initialState 1) c1Arrivals)).take 10 := by
  constructor
  · decide
  · decide

/-- **C1 (amended).**  For every interleaving of backend arrivals (any
sequence of `storeResult` deliveries, from any backend indices) in which the
stored combined rankings are pairwise distinct and strictly positive, the
ten-entry results buffer after all arrivals equals the first ten of all
results observed so far sorted by combined ranking descending with path
string descending as tie-break, padded with zero-valued entries while fewer
than ten results have been observed.  (The distinctness proviso is forced by
the counterexample: on an exact ranking tie with the current tenth entry the
strict `>` admission test of querymanager.go:437 keeps the incumbent, so the
claim as stated fails.) -/
theorem C1_top10_buffer_amended (nb : ℕ) (arr : List (ℕ × Result))
    (hU : ∀ p ∈ arr, '_' ∈ p.2.path.data)
    (hdist : (observedResults (initialState nb) arr).Pairwise (fun a c => a.ranking ≠ c.ranking))
    (hpos : ∀ y ∈ observedResults (initialState nb) arr, 0 < y.ranking) :
    processAll (initialState nb) arr = some (processAllCore (initialState nb) arr) ∧
      (processAllCore (initialState nb) arr).results =
        bufferSpec (observedResults (initialState nb) arr) := by
  refine ⟨processAll_eq_some arr _ hU, ?_⟩
  have h0 : (initialState nb).results = bufferSpec [] := by
    simp [initialState, bufferSpec]
  have hmain := bufferSpec_invariant arr (initialState nb) [] h0
    (by simpa using hdist) (by simpa using hpos)
  simpa using hmain

theorem combineResult_fst_path (s : QueryState) (r : Result) :
    (combineResult s r).1.path = r.path := by
  unfold combineResult
  split <;> rfl

theorem combineResult_fst_package (s : QueryState) (r : Result) :
    (combineResult s r).1.package = r.package := by
  unfold combineResult
  split <;> rfl

/-- Every `storeResultCore` call appends exactly one pointer, carrying the
combined ranking, the path hash and the package prefix of the stored
result. -/
theorem storeResultCore_pointers (s : QueryState) (b : ℕ) (res : Result) :
    (storeResultCore s b res).resultPointers = s.resultPointers ++
      [{ backendidx := b
         ranking := (obsRes s res).ranking
         pathHash := fnv64 (res.path.data.map Char.toNat)
         packageName := packagePart res.path }] := by
  unfold storeResultCore obsRes
  have h1 := combineResult_fst_path s (prepResult res)
  have h2 := combineResult_fst_package s (prepResult res)
  have h3 : (prepResult res).path = res.path := rfl
  have h4 : (prepResult res).package = packagePart res.path := rfl
  have h5 : ∀ (r' : Result), (combineResult s r').2.resultPointers = s.resultPointers :=
    fun r' => by unfold combineResult; split <;> rfl
  simp only [addEvent]
  split <;> simp [h1, h2, h3, h4, h5]

theorem writeToDisk_filesTotal (s : QueryState) : (writeToDisk s).1.filesTotal = s.filesTotal := by
  unfold writeToDisk
  split
  · rfl
  · simp only [addEvent]
    split <;> rfl

theorem writeToDisk_filesProcessed (s : QueryState) :
    (writeToDisk s).1.filesProcessed = s.filesProcessed := by
  unfold writeToDisk
  split
  · rfl
  · simp only [addEvent]
    split <;> rfl

theorem allTotalsSet_iff : ∀ (l : List ℤ), allTotalsSet l = true ↔ ∀ t ∈ l, t ≠ -1
  | [] => by simp [allTotalsSet]
  | t :: rest => by
    by_cases h : t = -1
    · simp [allTotalsSet, h]
    · simp [allTotalsSet, h, allTotalsSet_iff rest]

theorem storeProgress_filesTotal (s : QueryState) (b : ℕ) (p : Result) :
    (storeProgress s b p).1.filesTotal = s.filesTotal.set b p.filesTotal := by
  unfold storeProgress
  by_cases h1 : allTotalsSet (s.filesTotal.set b p.filesTotal) = true <;>
    by_cases h2 : (s.filesProcessed.set b p.filesProcessed).sum =
      (s.filesTotal.set b p.filesTotal).sum <;>
    simp [h1, h2, writeToDisk_filesTotal, addEvent, finishQuery]

theorem storeProgress_filesProcessed (s : QueryState) (b : ℕ) (p : Result) :
    (storeProgress s b p).1.filesProcessed = s.filesProcessed.set b p.filesProcessed := by
  unfold storeProgress
  by_cases h1 : allTotalsSet (s.filesTotal.set b p.filesTotal) = true <;>
    by_cases h2 : (s.filesProcessed.set b p.filesProcessed).sum =
      (s.filesTotal.set b p.filesTotal).sum <;>
    simp [h1, h2, writeToDisk_filesProcessed, addEvent, finishQuery]

theorem getD_set_self {α : Type} (l : List α) (i : ℕ) (a d : α) (h : i < l.length) :
    (l.set i a).getD i d = a := by
  rw [List.getD_eq_getElem _ _ (by simpa using h)]
  simp

theorem storeResultCore_numResults (s : QueryState) (b : ℕ) (res : Result) :
    (storeResultCore s b res).numResults = s.numResults + 1 := by
  unfold storeResultCore
  have h : ∀ r', (combineResult s r').2.numResults = s.numResults :=
    fun r' => by unfold combineResult; split <;> rfl
  simp only [addEvent]
  split <;> simp [h]

theorem storeResultCore_done (s : QueryState) (b : ℕ) (res : Result) :
    (storeResultCore s b res).done = s.done := by
  unfold storeResultCore
  have h : ∀ r', (combineResult s r').2.done = s.done :=
    fun r' => by unfold combineResult; split <;> rfl
  simp only [addEvent]
  split <;> simp [h]

/-! ## Claim C2: completion detection -/

/-- **C2.**  A `storeProgress` call declares completion — invokes the
persistence step (second component `some`) and finishes the query (`done`
set through the terminal marker event) — if and only if, after recording
this update, every backend's `filesTotal` holds a known value (not the `-1`
sentinel) and the processed counters sum to the total counters. -/
theorem C2_completion_iff (s : QueryState) (b : ℕ) (p : Result) (hdone : s.done = false) :
    ((storeProgress s b p).1.done = true ↔
        ((∀ t ∈ s.filesTotal.set b p.filesTotal, t ≠ -1) ∧
          (s.filesProcessed.set b p.filesProcessed).sum =
            (s.filesTotal.set b p.filesTotal).sum)) ∧
      ((storeProgress s b p).2.isSome = true ↔
        ((∀ t ∈ s.filesTotal.set b p.filesTotal, t ≠ -1) ∧
          (s.filesProcessed.set b p.filesProcessed).sum =
            (s.filesTotal.set b p.filesTotal).sum)) := by
  unfold storeProgress
  by_cases h1 : allTotalsSet (s.filesTotal.set b p.filesTotal) = true <;>
    by_cases h2 : (s.filesProcessed.set b p.filesProcessed).sum =
      (s.filesTotal.set b p.filesTotal).sum
  · have hall : ∀ t ∈ s.filesTotal.set b p.filesTotal, t ≠ -1 := (allTotalsSet_iff _).mp h1
    simp [h1, h2, finishQuery, addEvent]
    all_goals exact fun t ht => hall t ht
  · simp [h1, h2, addEvent, hdone]
  · have : ¬ ∀ t ∈ s.filesTotal.set b p.filesTotal, t ≠ -1 :=
      fun hf => h1 ((allTotalsSet_iff _).mpr hf)
    simp [h1, h2, hdone, this]
  · have : ¬ ∀ t ∈ s.filesTotal.set b p.filesTotal, t ≠ -1 :=
      fun hf => h1 ((allTotalsSet_iff _).mpr hf)
    simp [h1, h2, hdone, this]

/-- Witness for C2: a single backend reporting `7` processed of `7` total
completes the query; the same update with `5` processed does not. -/
theorem C2_completion_iff_witness :
    (initialState 1).done = false ∧
      (((storeProgress (initialState 1) 0
            { rtype := "progress", filesProcessed := 7, filesTotal := 7 }).1.done = true ↔
          ((∀ t ∈ (initialState 1).filesTotal.set 0 (7 : ℤ), t ≠ -1) ∧
            ((initialState 1).filesProcessed.set 0 (7 : ℤ)).sum =
              ((initialState 1).filesTotal.set 0 (7 : ℤ)).sum)) ∧
        ((storeProgress (initialState 1) 0
            { rtype := "progress", filesProcessed := 7, filesTotal := 7 }).2.isSome = true ↔
          ((∀ t ∈ (initialState 1).filesTotal.set 0 (7 : ℤ), t ≠ -1) ∧
            ((initialState 1).filesProcessed.set 0 (7 : ℤ)).sum =
              ((initialState 1).filesTotal.set 0 (7 : ℤ)).sum))) :=
  ⟨by decide,
    C2_completion_iff (initialState 1) 0
      { rtype := "progress", filesProcessed := 7, filesTotal := 7 } (by decide)⟩

/-! ## Claim C6: the backend-exit cleanup -/

/-- **C6.**  A backend worker exiting with its backend's processed counter
unequal to its total synthesizes a progress update setting both counters to
the best-known total (`0` while the `-1` sentinel is still in place) and
appends a "backendunavailable" error event; a worker exiting with
processed = total changes nothing and emits nothing. -/
theorem C6_backend_exit (s : QueryState) (b : ℕ)
    (hb : b < s.filesTotal.length) (hb' : b < s.filesProcessed.length) :
    (s.filesProcessed.getD b 0 = s.filesTotal.getD b 0 → queryBackendExit s b = s) ∧
      (s.filesProcessed.getD b 0 ≠ s.filesTotal.getD b 0 →
        (queryBackendExit s b).events.getLast? =
            some (GoEvent.errorEvent "backendunavailable") ∧
          (queryBackendExit s b).filesTotal.getD b 0 =
            (if s.filesTotal.getD b 0 = -1 then 0 else s.filesTotal.getD b 0) ∧
          (queryBackendExit s b).filesProcessed.getD b 0 =
            (if s.filesTotal.getD b 0 = -1 then 0 else s.filesTotal.getD b 0)) := by
  constructor
  · intro h
    unfold queryBackendExit
    rw [if_pos h]
  · intro h
    unfold queryBackendExit
    rw [if_neg h]
    refine ⟨?_, ?_, ?_⟩
    · simp only [addEvent]
      exact List.getLast?_concat _
    · simp only [addEvent, storeProgress_filesTotal]
      exact getD_set_self _ _ _ _ hb
    · simp only [addEvent, storeProgress_filesProcessed]
      exact getD_set_self _ _ _ _ hb'

/-- Witness for C6: with `filesTotal = [-1]` still unknown and no files
processed... the exit path stores `0/0` and flags the backend unavailable;
with a matching `3/3` state it is silent. -/
theorem C6_backend_exit_witness :
    (0 < (initialState 1).filesTotal.length ∧ 0 < (initialState 1).filesProcessed.length) ∧
      (((initialState 1).filesProcessed.getD 0 0 = (initialState 1).filesTotal.getD 0 0 →
          queryBackendExit (initialState 1) 0 = initialState 1) ∧
        ((initialState 1).filesProcessed.getD 0 0 ≠ (initialState 1).filesTotal.getD 0 0 →
          (queryBackendExit (initialState 1) 0).events.getLast? =
              some (GoEvent.errorEvent "backendunavailable") ∧
            (queryBackendExit (initialState 1) 0).filesTotal.getD 0 0 =
              (if (initialState 1).filesTotal.getD 0 0 = -1 then 0
                else (initialState 1).filesTotal.getD 0 0) ∧
            (queryBackendExit (initialState 1) 0).filesProcessed.getD 0 0 =
              (if (initialState 1).filesTotal.getD 0 0 = -1 then 0
                else (initialState 1).filesTotal.getD 0 0))) :=
  ⟨⟨by decide, by decide⟩, C6_backend_exit (initialState 1) 0 (by decide) (by decide)⟩

/-! ## Claim C8: late writes after the done flag -/

/-- A query state whose `done` flag is already set (the terminal state a
still-running backend worker observes after cancellation). -/
def doneState : QueryState :=
  { initialState 1 with done := true }

/-- **C8, counterexample.**  A `storeResult` call on a done query still
mutates the shared state (the result counter moves from 0 to 1 and a pointer
is appended), and a `storeProgress` call still overwrites the per-backend
counters: late writes are not no-ops, refuting the claim as stated. -/
theorem C8_late_write_counterexample :
    doneState.done = true ∧
      (storeResult doneState 0 { path := "pkgA_one.c", ranking := mkRat 1 2 }).map
          QueryState.numResults = some 1 ∧
      doneState.numResults = 0 ∧
      (storeProgress doneState 0
          { rtype := "progress", filesProcessed := 5, filesTotal := 7 }).1.filesTotal ≠
        doneState.filesTotal := by
  refine ⟨by decide, by decide, by decide, by decide⟩

/-- **C8 (amended).**  Neither `storeResult` nor `storeProgress` consults the
`done` flag: a call made after the query is done performs the same mutation
of the shared state as before (one more pointer, result counter incremented,
counters overwritten).  Only the worker's decode loop
(`for !state[queryid].done`) reads the flag, so late in-flight writes by
still-running backend workers do land in the shared state. -/
theorem C8_late_write_amended (s : QueryState) (b c : ℕ) (r p : Result)
    (hdone : s.done = true) (hU : '_' ∈ r.path.data) :
    (∃ s', storeResult s b r = some s' ∧
        s'.numResults = s.numResults + 1 ∧
        s'.resultPointers.length = s.resultPointers.length + 1 ∧
        s'.done = true) ∧
      (storeProgress s c p).1.filesTotal = s.filesTotal.set c p.filesTotal ∧
      (storeProgress s c p).1.filesProcessed = s.filesProcessed.set c p.filesProcessed := by
  refine ⟨⟨storeResultCore s b r, storeResult_eq_some hU, ?_, ?_, ?_⟩,
    storeProgress_filesTotal s c p, storeProgress_filesProcessed s c p⟩
  · exact storeResultCore_numResults s b r
  · rw [storeResultCore_pointers]
    simp
  · rw [storeResultCore_done, hdone]

/-- Witness for the amended C8 theorem on the concrete done state. -/
theorem C8_late_write_amended_witness :
    (doneState.done = true ∧ '_' ∈ "pkgA_one.c".data) ∧
      ((∃ s', storeResult doneState 0 { path := "pkgA_one.c", ranking := mkRat 1 2 } = some s' ∧
          s'.numResults = doneState.numResults + 1 ∧
          s'.resultPointers.length = doneState.resultPointers.length + 1 ∧
          s'.done = true) ∧
        (storeProgress doneState 0
            { rtype := "progress", filesProcessed := 5, filesTotal := 7 }).1.filesTotal =
          doneState.filesTotal.set 0 (7 : ℤ) ∧
        (storeProgress doneState 0
            { rtype := "progress", filesProcessed := 5, filesTotal := 7 }).1.filesProcessed =
          doneState.filesProcessed.set 0 (5 : ℤ)) :=
  ⟨⟨by decide, by decide⟩,
    C8_late_write_amended doneState 0 0 { path := "pkgA_one.c", ranking := mkRat 1 2 }
      { rtype := "progress", filesProcessed := 5, filesTotal := 7 } (by decide) (by decide)⟩

theorem getD_map_range {α : Type} (f : ℕ → α) (d : α) {m i : ℕ} (h : i < m) :
    ((List.range m).map f).getD i d = f i := by
  rw [List.getD_eq_getElem _ _ (by simpa using h)]
  simp

theorem getLast?_map_range {α : Type} (f : ℕ → α) {m : ℕ} (h : 0 < m) :
    ((List.range m).map f).getLast? = some (f (m - 1)) := by
  rw [List.getLast?_eq_getElem?]
  have hlen : (((List.range m).map f)).length = m := by simp
  rw [hlen, List.getElem?_eq_getElem (by simp; omega)]
  simp

/-! ## Claim C4: the page partition -/

/-- **C4.**  The persistence step writes `ceil(totalResults / 10)` page
files; every non-final page holds exactly ten entries; when at least one
result exists, the final page holds `totalResults mod 10` entries (ten when
the count is divisible by ten).  A zero-result query writes zero pages,
matching `ceil(0 / 10) = 0`. -/
theorem C4_page_partition (s : QueryState) :
    ((writeToDisk s).2.pageFiles.length = ceilDiv s.resultPointers.length resultsPerPage) ∧
      (∀ i, i + 1 < (writeToDisk s).2.pageFiles.length →
        ((writeToDisk s).2.pageFiles.getD i []).length = resultsPerPage) ∧
      (s.resultPointers ≠ [] →
        (writeToDisk s).2.pageFiles.getLast?.map List.length =
          some (if s.resultPointers.length % resultsPerPage = 0 then resultsPerPage
            else s.resultPointers.length % resultsPerPage)) := by
  by_cases hne : s.resultPointers = []
  · unfold writeToDisk
    rw [if_pos hne]
    refine ⟨?_, ?_, ?_⟩
    · simp [hne, ceilDiv, resultsPerPage]
    · intro i hi
      simp at hi
    · intro h
      exact absurd hne h
  · have hout : (writeToDisk s).2.pageFiles =
        (List.range (ceilDiv s.resultPointers.length resultsPerPage)).map
          (fun page => ((List.insertionSort pointerLE s.resultPointers).drop
            (page * resultsPerPage)).take resultsPerPage) := by
      unfold writeToDisk
      rw [if_neg hne]
    have hn : 0 < s.resultPointers.length := List.length_pos.mpr hne
    have hlen : (List.insertionSort pointerLE s.resultPointers).length =
        s.resultPointers.length := List.length_insertionSort _ _
    have hchunk : ∀ i : ℕ,
        (((List.insertionSort pointerLE s.resultPointers).drop
          (i * resultsPerPage)).take resultsPerPage).length =
          min resultsPerPage (s.resultPointers.length - i * resultsPerPage) := by
      intro i
      simp [hlen]
    refine ⟨?_, ?_, ?_⟩
    · rw [hout]
      simp
    · intro i hi
      rw [hout] at hi ⊢
      simp only [List.length_map, List.length_range] at hi
      rw [getD_map_range _ _ (by omega), hchunk]
      simp only [ceilDiv, resultsPerPage] at hi ⊢
      omega
    · intro _
      have hpages : 0 < ceilDiv s.resultPointers.length resultsPerPage := by
        simp only [ceilDiv, resultsPerPage]
        omega
      rw [hout, getLast?_map_range _ hpages]
      simp only [Option.map, hchunk, Option.some.injEq]
      simp only [ceilDiv, resultsPerPage]
      split <;> omega

/-- Witness for C4 on a concrete state holding twelve result pointers: two
pages, the first full with ten entries, the last with `12 mod 10 = 2`. -/
theorem C4_page_partition_witness :
    (((writeToDisk c4State).2.pageFiles.length =
        ceilDiv c4State.resultPointers.length resultsPerPage) ∧
      (∀ i, i + 1 < (writeToDisk c4State).2.pageFiles.length →
        ((writeToDisk c4State).2.pageFiles.getD i []).length = resultsPerPage) ∧
      (c4State.resultPointers ≠ [] →
        (writeToDisk c4State).2.pageFiles.getLast?.map List.length =
          some (if c4State.resultPointers.length % resultsPerPage = 0 then resultsPerPage
            else c4State.resultPointers.length % resultsPerPage))) ∧
      c4State.resultPointers ≠ [] :=
  ⟨C4_page_partition c4State, by decide⟩

theorem alGet_alPut_self (m : List (String × List ResultPointer)) (k : String)
    (v : List ResultPointer) : alGet (alPut m k v) k = some v := by
  induction m with
  | nil => simp [alPut, alGet]
  | cons kv rest ih =>
    by_cases h : kv.1 = k
    · simp [alPut, alGet, h]
    · simp [alPut, alGet, h, ih]

theorem alGet_alPut_other (m : List (String × List ResultPointer)) (k k' : String)
    (v : List ResultPointer) (h : k ≠ k') : alGet (alPut m k v) k' = alGet m k' := by
  induction m with
  | nil => simp [alPut, alGet, h]
  | cons kv rest ih =>
    by_cases hk : kv.1 = k
    · simp [alPut, alGet, hk, h, ih]
    · simp only [alPut, if_neg hk, alGet]
      by_cases hk' : kv.1 = k' <;> simp [hk', ih]

/-- The per-package capping fold builds, for every package, the first
`resultsPerPackage` pointers of that package in walk order. -/
theorem bypkg_foldl :
    ∀ (l processed : List ResultPointer) (acc : List (String × List ResultPointer)),
      (∀ q, (alGet acc q).getD [] =
        (processed.filter (fun x => x.packageName = q)).take resultsPerPackage) →
      ∀ q, (alGet (l.foldl bypkgStep acc) q).getD [] =
        ((processed ++ l).filter (fun x => x.packageName = q)).take resultsPerPackage
  | [], processed, acc, hacc, q => by simpa using hacc q
  | p :: rest, processed, acc, hacc, q => by
    rw [List.foldl_cons]
    have hstep : ∀ q', (alGet (bypkgStep acc p) q').getD [] =
        ((processed ++ [p]).filter (fun x => x.packageName = q')).take resultsPerPackage := by
      intro q'
      unfold bypkgStep
      by_cases hq : p.packageName = q'
      · subst hq
        have hfp : List.filter (fun x => decide (x.packageName = p.packageName)) [p] = [p] := by
          simp
        rw [List.filter_append, hfp]
        by_cases hfull : resultsPerPackage ≤ ((alGet acc p.packageName).getD []).length
        · rw [if_pos hfull]
          have hcount := hacc p.packageName
          have hflen : resultsPerPackage ≤
              (List.filter (fun x => decide (x.packageName = p.packageName)) processed).length := by
            rw [hcount, List.length_take] at hfull
            omega
          have htake : (List.filter (fun x => decide (x.packageName = p.packageName)) processed
                ++ [p]).take resultsPerPackage =
              (List.filter (fun x => decide (x.packageName = p.packageName)) processed).take
                resultsPerPackage := by
            rw [List.take_append_eq_append_take]
            have h0 : resultsPerPackage -
                (List.filter (fun x => decide (x.packageName = p.packageName)) processed).length
                  = 0 := by omega
            rw [h0]
            simp
          rw [htake]
          exact hcount
        · rw [if_neg hfull, alGet_alPut_self]
          have hcount := hacc p.packageName
          have hflen : (List.filter (fun x => decide (x.packageName = p.packageName))
              processed).length < resultsPerPackage := by
            rw [hcount, List.length_take] at hfull
            omega
          simp only [Option.getD_some]
          rw [hcount, List.take_of_length_le (le_of_lt hflen),
            List.take_of_length_le (by
              simp only [List.length_append, List.length_cons, List.length_nil]
              omega)]
      · have hfp : List.filter (fun x => decide (x.packageName = q')) [p] = [] := by
          simp [hq]
        rw [List.filter_append, hfp, List.append_nil]
        by_cases hfull : resultsPerPackage ≤ ((alGet acc p.packageName).getD []).length
        · rw [if_pos hfull]
          exact hacc q'
        · rw [if_neg hfull, alGet_alPut_other _ _ _ _ hq]
          exact hacc q'
    have := bypkg_foldl rest (processed ++ [p]) (bypkgStep acc p) hstep q
    rw [this, List.append_assoc, List.singleton_append]

/-! ## Claim C5: the per-package files -/

/-- **C5.**  For every package, the per-package file written by the
persistence step holds at most two entries; those entries are exactly the
first two pointers of that package in the global (ranking descending,
path-hash descending) sort order, they all belong to the query's pointer
list, and each of them sorts at or above every other pointer of the same
package. -/
theorem C5_perpackage_cap (s : QueryState) (hne : s.resultPointers ≠ []) (pkg : String) :
    ((alGet (writeToDisk s).2.pkgFiles pkg).getD []).length ≤ resultsPerPackage ∧
      (alGet (writeToDisk s).2.pkgFiles pkg).getD [] =
        ((List.insertionSort pointerLE s.resultPointers).filter
          (fun x => x.packageName = pkg)).take resultsPerPackage ∧
      (∀ x ∈ (alGet (writeToDisk s).2.pkgFiles pkg).getD [],
        x ∈ s.resultPointers ∧ x.packageName = pkg) ∧
      (∀ x ∈ (alGet (writeToDisk s).2.pkgFiles pkg).getD [],
        ∀ y ∈ ((List.insertionSort pointerLE s.resultPointers).filter
          (fun x => x.packageName = pkg)).drop resultsPerPackage, pointerLE x y) := by
  have hfiles : (writeToDisk s).2.pkgFiles =
      (List.insertionSort pointerLE s.resultPointers).foldl bypkgStep [] := by
    unfold writeToDisk
    rw [if_neg hne]
  have hmain : (alGet (writeToDisk s).2.pkgFiles pkg).getD [] =
      ((List.insertionSort pointerLE s.resultPointers).filter
        (fun x => x.packageName = pkg)).take resultsPerPackage := by
    rw [hfiles]
    have := bypkg_foldl (List.insertionSort pointerLE s.resultPointers) [] []
      (fun q => by simp [alGet]) pkg
    simpa using this
  have hsortedF : (((List.insertionSort pointerLE s.resultPointers).filter
      (fun x => x.packageName = pkg))).Sorted pointerLE :=
    (List.sorted_insertionSort pointerLE s.resultPointers).filter _
  refine ⟨?_, hmain, ?_, ?_⟩
  · rw [hmain]
    simp [List.length_take]
  · intro x hx
    rw [hmain] at hx
    have hxF := (List.take_sublist _ _).mem hx
    constructor
    · exact (List.perm_insertionSort pointerLE s.resultPointers).mem_iff.mp
        (List.mem_of_mem_filter hxF)
    · simpa using List.of_mem_filter hxF
  · intro x hx y hy
    rw [hmain] at hx
    have hsplit := List.take_append_drop resultsPerPackage
      ((List.insertionSort pointerLE s.resultPointers).filter (fun x => x.packageName = pkg))
    rw [← hsplit, List.Sorted, List.pairwise_append] at hsortedF
    exact hsortedF.2.2 x hx y hy

/-- Witness for C5 on a concrete four-pointer state: package `pkgA` has three
results, and only its two best survive. -/
theorem C5_perpackage_cap_witness :
    c5State.resultPointers ≠ [] ∧
      (((alGet (writeToDisk c5State).2.pkgFiles "pkgA").getD []).length ≤ resultsPerPackage ∧
        (alGet (writeToDisk c5State).2.pkgFiles "pkgA").getD [] =
          ((List.insertionSort pointerLE c5State.resultPointers).filter
            (fun x => x.packageName = "pkgA")).take resultsPerPackage ∧
        (∀ x ∈ (alGet (writeToDisk c5State).2.pkgFiles "pkgA").getD [],
          x ∈ c5State.resultPointers ∧ x.packageName = "pkgA") ∧
        (∀ x ∈ (alGet (writeToDisk c5State).2.pkgFiles "pkgA").getD [],
          ∀ y ∈ ((List.insertionSort pointerLE c5State.resultPointers).filter
            (fun x => x.packageName = "pkgA")).drop resultsPerPackage, pointerLE x y)) :=
  ⟨by decide, C5_perpackage_cap c5State (by decide) "pkgA"⟩

theorem obsRes_package (s : QueryState) (res : Result) :
    (obsRes s res).package = packagePart res.path := by
  unfold obsRes
  rw [combineResult_fst_package]
  rfl

theorem storeResultCore_allPackages (s : QueryState) (b : ℕ) (res : Result) :
    (storeResultCore s b res).allPackages =
      if packagePart res.path ∈ s.allPackages then s.allPackages
      else s.allPackages ++ [packagePart res.path] := by
  unfold storeResultCore
  have h1 := combineResult_fst_package s (prepResult res)
  have h2 : (prepResult res).package = packagePart res.path := rfl
  have h3 : ∀ r', (combineResult s r').2.allPackages = s.allPackages :=
    fun r' => by unfold combineResult; split <;> rfl
  simp only [addEvent]
  split <;> simp [h1, h2, h3]

theorem processAllCore_allPackages_mem :
    ∀ (arr : List (ℕ × Result)) (s : QueryState) (q : String),
      q ∈ (processAllCore s arr).allPackages ↔
        q ∈ s.allPackages ∨ q ∈ (observedResults s arr).map Result.package
  | [], s, q => by simp [processAllCore, observedResults]
  | (b, r) :: rest, s, q => by
    have hrec := processAllCore_allPackages_mem rest (storeResultCore s b r) q
    show q ∈ (processAllCore (storeResultCore s b r) rest).allPackages ↔ _
    rw [hrec, storeResultCore_allPackages]
    have hobs : observedResults s ((b, r) :: rest) =
        obsRes s r :: observedResults (storeResultCore s b r) rest := rfl
    rw [hobs]
    simp only [List.map_cons, List.mem_cons, obsRes_package]
    by_cases h : packagePart r.path ∈ s.allPackages
    · rw [if_pos h]
      constructor
      · rintro (hq | hq)
        · exact Or.inl hq
        · exact Or.inr (Or.inr hq)
      · rintro (hq | hq | hq)
        · exact Or.inl hq
        · exact Or.inl (hq ▸ h)
        · exact Or.inr hq
    · rw [if_neg h]
      simp only [List.mem_append, List.mem_singleton]
      tauto
  termination_by arr => arr.length

theorem processAllCore_allPackages_nodup :
    ∀ (arr : List (ℕ × Result)) (s : QueryState), s.allPackages.Nodup →
      (processAllCore s arr).allPackages.Nodup
  | [], _, h => h
  | (b, r) :: rest, s, h => by
    apply processAllCore_allPackages_nodup rest
    rw [storeResultCore_allPackages]
    split
    · exact h
    · rename_i hnot
      simp [List.nodup_append, h, hnot]

theorem writeToDisk_output (s : QueryState) (hne : s.resultPointers ≠ []) :
    (writeToDisk s).2.packagesJson = some s.allPackages ∧
      (writeToDisk s).1.resultPages = ceilDiv s.resultPointers.length resultsPerPage ∧
      (writeToDisk s).1.allPackagesSorted = s.allPackages := by
  unfold writeToDisk
  rw [if_neg hne]
  refine ⟨rfl, ?_, ?_⟩ <;> · simp only [addEvent]; split <;> rfl

/-! ## Claim C7: the package list file -/

/-- **C7, counterexample.**  A query whose backends all report
`processed = total = 0` reaches completion (the `done` flag is set and the
persistence step runs), yet `writeToDisk` returns on the empty pointer list
before writing anything: no `packages.json` is produced.  This refutes "for
every completed query the persistence step writes packages.json". -/
theorem C7_packages_json_counterexample :
    (storeProgress (initialState 1) 0
        { rtype := "progress", filesProcessed := 0, filesTotal := 0 }).1.done = true ∧
      (storeProgress (initialState 1) 0
        { rtype := "progress", filesProcessed := 0, filesTotal := 0 }).2 =
          some ({} : DiskOutput) ∧
      ({} : DiskOutput).packagesJson = none := by
  refine ⟨by decide, by decide, by decide⟩

/-- **C7 (amended).**  For every query that reaches completion *with at least
one stored result pointer*, the persistence step writes `packages.json`
listing exactly the distinct package names observed in the query's results
(no duplicates, one entry per package seen), and records the page count on
the query state.  On a completed query with zero results nothing is written
(counterexample above). -/
theorem C7_packages_json_amended (nb : ℕ) (arr : List (ℕ × Result))
    (hU : ∀ p ∈ arr, '_' ∈ p.2.path.data)
    (hne : (processAllCore (initialState nb) arr).resultPointers ≠ []) :
    processAll (initialState nb) arr = some (processAllCore (initialState nb) arr) ∧
      ∃ pkgs,
        (writeToDisk (processAllCore (initialState nb) arr)).2.packagesJson = some pkgs ∧
        pkgs.Nodup ∧
        (∀ q, q ∈ pkgs ↔ q ∈ (observedResults (initialState nb) arr).map Result.package) ∧
        (writeToDisk (processAllCore (initialState nb) arr)).1.resultPages =
          ceilDiv (processAllCore (initialState nb) arr).resultPointers.length
            resultsPerPage := by
  refine ⟨processAll_eq_some arr _ hU,
    (processAllCore (initialState nb) arr).allPackages, ?_, ?_, ?_, ?_⟩
  · exact (writeToDisk_output _ hne).1
  · exact processAllCore_allPackages_nodup arr (initialState nb) (by simp [initialState])
  · intro q
    rw [processAllCore_allPackages_mem]
    simp [initialState]
  · exact (writeToDisk_output _ hne).2.1

/-- Witness for the amended C7 theorem on the concrete run `smallArrivals`
(packages `pkgA` and `pkgB`). -/
theorem C7_packages_json_amended_witness :
    ((∀ p ∈ smallArrivals, '_' ∈ p.2.path.data) ∧
        (processAllCore (initialState 2) smallArrivals).resultPointers ≠ []) ∧
      (processAll (initialState 2) smallArrivals =
          some (processAllCore (initialState 2) smallArrivals) ∧
        ∃ pkgs,
          (writeToDisk (processAllCore (initialState 2) smallArrivals)).2.packagesJson =
              some pkgs ∧
            pkgs.Nodup ∧
            (∀ q, q ∈ pkgs ↔
              q ∈ (observedResults (initialState 2) smallArrivals).map Result.package) ∧
            (writeToDisk (processAllCore (initialState 2) smallArrivals)).1.resultPages =
              ceilDiv (processAllCore (initialState 2) smallArrivals).resultPointers.length
                resultsPerPage) :=
  ⟨⟨by decide, by decide⟩,
    C7_packages_json_amended 2 smallArrivals (by decide) (by decide)⟩

/-! ## Claim C9: the per-package results handler -/

/-- **C9.**  On a known query, the per-package page handler answers: the
"not finished" error when the query is still not done at the end of the
bounded wait (no hang); a 404 when the page number reaches
`ceil(numPackages / 5)`; otherwise a JSON array of at most five
`{Package, Results}` entries for the packages in positions
`[pageNumber*5, (pageNumber+1)*5)` of the frozen package list. -/
theorem C9_perpackage_handler (s : QueryState) (pagenr : ℕ)
    (pkgFile : String → List ResultPointer) :
    (s.done = false →
        perPackageResults (some s) pagenr pkgFile = PerPackageResponse.notFinished) ∧
      (s.done = true → ceilDiv s.allPackagesSorted.length packagesPerPage ≤ pagenr →
        perPackageResults (some s) pagenr pkgFile = PerPackageResponse.noSuchPage) ∧
      (s.done = true → pagenr < ceilDiv s.allPackagesSorted.length packagesPerPage →
        perPackageResults (some s) pagenr pkgFile =
          PerPackageResponse.ok
            (((s.allPackagesSorted.drop (pagenr * packagesPerPage)).take packagesPerPage).map
              (fun pkg => (pkg, pkgFile pkg))) ∧
        (((s.allPackagesSorted.drop (pagenr * packagesPerPage)).take packagesPerPage).map
            (fun pkg => (pkg, pkgFile pkg))).length ≤ packagesPerPage) := by
  refine ⟨?_, ?_, ?_⟩
  · intro h
    simp [perPackageResults, h]
  · intro h hp
    simp [perPackageResults, h, hp]
  · intro h hp
    constructor
    · simp [perPackageResults, h, not_le.mpr hp, Nat.not_le_of_lt hp]
    · simp only [List.length_map, List.length_take]
      omega

/-- Witness for C9 on the concrete finished state `c9State` (six packages,
two pages): page 1 holds the single entry `pkgF`. -/
theorem C9_perpackage_handler_witness :
    ((c9State.done = false →
        perPackageResults (some c9State) 1 (fun _ => []) = PerPackageResponse.notFinished) ∧
      (c9State.done = true →
        ceilDiv c9State.allPackagesSorted.length packagesPerPage ≤ 1 →
        perPackageResults (some c9State) 1 (fun _ => []) = PerPackageResponse.noSuchPage) ∧
      (c9State.done = true →
        1 < ceilDiv c9State.allPackagesSorted.length packagesPerPage →
        perPackageResults (some c9State) 1 (fun _ => []) =
          PerPackageResponse.ok
            (((c9State.allPackagesSorted.drop (1 * packagesPerPage)).take packagesPerPage).map
              (fun pkg => (pkg, ([] : List ResultPointer)))) ∧
        (((c9State.allPackagesSorted.drop (1 * packagesPerPage)).take packagesPerPage).map
            (fun pkg => (pkg, ([] : List ResultPointer)))).length ≤ packagesPerPage)) ∧
      c9State.done = true ∧ 1 < ceilDiv c9State.allPackagesSorted.length packagesPerPage :=
  ⟨C9_perpackage_handler c9State 1 (fun _ => []), by decide, by decide⟩

/-! ## Claim C3: ranking combination and the reference pre-rank -/

theorem obsRes_ranking_of_pos (s : QueryState) (res : Result) (h : 0 < s.firstPathRank) :
    (obsRes s res).ranking = res.pathRank + s.firstPathRank * (1 / 10) * res.ranking := by
  unfold obsRes combineResult
  rw [if_pos h]
  rfl

/-- **C3, counterexample.**  The first result observed for a query — pre-rank
`0.8`, post-rank `0` — does *not* seed `FirstPathRank`: its combined ranking
`0` fails the `> worst` admission test, the local state copy holding the
seeded value is never written back to the shared map, and `FirstPathRank`
stays `0`.  This refutes "the first result ever observed seeds the reference
pre-rank value from its pre-rank" as universally stated. -/
theorem C3_seed_counterexample :
    processAll (initialState 1)
        [(0, { path := "pkgA_one.c", pathRank := 4 / 5, ranking := 0 })] =
      some (processAllCore (initialState 1)
        [(0, { path := "pkgA_one.c", pathRank := 4 / 5, ranking := 0 })]) ∧
      (processAllCore (initialState 1)
        [(0, { path := "pkgA_one.c", pathRank := 4 / 5, ranking := 0 })]).firstPathRank = 0 ∧
      ({ path := "pkgA_one.c", pathRank := 4 / 5, ranking := 0 } : Result).pathRank ≠ 0 := by
  refine ⟨by decide, by decide, by decide⟩

/-- **C3 (amended).**  While `FirstPathRank` is unpopulated, a result seeds it
from its pre-rank exactly when the result enters the top-10 buffer (the
seeded local copy is written back only on that branch; otherwise the seed is
lost).  Once `FirstPathRank > 0`, every stored result's combined ranking is
`pre-rank + (FirstPathRank * 0.1) * post-rank`.  In the §8 example (first
result pre 0.8 / post 0.5, second pre 0.8 / post 0.9) the stored rankings are
`0.5` and `0.872 = 109/125`, and the second result occupies the top buffer
slot, above the first. -/
theorem C3_ranking_combination_amended (s : QueryState) (b : ℕ) (res : Result) :
    (¬ 0 < s.firstPathRank → (s.results.getD 9 zeroResult).ranking < res.ranking →
        (storeResultCore s b res).firstPathRank = res.pathRank) ∧
      (¬ 0 < s.firstPathRank → ¬ (s.results.getD 9 zeroResult).ranking < res.ranking →
        (storeResultCore s b res).firstPathRank = s.firstPathRank) ∧
      (0 < s.firstPathRank →
        (storeResultCore s b res).resultPointers = s.resultPointers ++
          [{ backendidx := b
             ranking := res.pathRank + s.firstPathRank * (1 / 10) * res.ranking
             pathHash := fnv64 (res.path.data.map Char.toNat)
             packageName := packagePart res.path }]) ∧
      ((processAllCore (initialState 2) [(0, c3First), (1, c3Second)]).resultPointers.map
          ResultPointer.ranking = [1 / 2, 109 / 125] ∧
        ((processAllCore (initialState 2) [(0, c3First), (1, c3Second)]).results.take 2).map
          Result.path = ["pkgX_bar.c", "pkgX_foo.c"]) := by
  refine ⟨?_, ?_, ?_, by decide, by decide⟩
  · intro h hc
    have hc' : (s.results[9]?.getD zeroResult).ranking < res.ranking := by
      simpa [List.getD_eq_getElem?_getD] using hc
    unfold storeResultCore combineResult prepResult
    simp [h, hc', addEvent]
  · intro h hc
    have hc' : ¬ (s.results[9]?.getD zeroResult).ranking < res.ranking := by
      simpa [List.getD_eq_getElem?_getD] using hc
    unfold storeResultCore combineResult prepResult
    simp [h, hc', addEvent]
  · intro h
    rw [storeResultCore_pointers, obsRes_ranking_of_pos s res h]

/-- Witness for the amended C3 theorem at a populated reference value
(`FirstPathRank = 4/5`) on the second §8 result. -/
theorem C3_ranking_combination_amended_witness :
    ((¬ (0:ℚ) < ({ initialState 2 with firstPathRank := 4 / 5 } : QueryState).firstPathRank →
        (({ initialState 2 with
            firstPathRank := 4 / 5 } : QueryState).results.getD 9 zeroResult).ranking <
          c3Second.ranking →
        (storeResultCore { initialState 2 with firstPathRank := 4 / 5 } 1
          c3Second).firstPathRank = c3Second.pathRank) ∧
      (¬ (0:ℚ) < ({ initialState 2 with firstPathRank := 4 / 5 } : QueryState).firstPathRank →
        ¬ (({ initialState 2 with
            firstPathRank := 4 / 5 } : QueryState).results.getD 9 zeroResult).ranking <
          c3Second.ranking →
        (storeResultCore { initialState 2 with firstPathRank := 4 / 5 } 1
          c3Second).firstPathRank =
          ({ initialState 2 with firstPathRank := 4 / 5 } : QueryState).firstPathRank) ∧
      ((0:ℚ) < ({ initialState 2 with firstPathRank := 4 / 5 } : QueryState).firstPathRank →
        (storeResultCore { initialState 2 with firstPathRank := 4 / 5 } 1
            c3Second).resultPointers =
          ({ initialState 2 with firstPathRank := 4 / 5 } : QueryState).resultPointers ++
            [{ backendidx := 1
               ranking := c3Second.pathRank +
                 ({ initialState 2 with firstPathRank := 4 / 5 } : QueryState).firstPathRank *
                   (1 / 10) * c3Second.ranking
               pathHash := fnv64 (c3Second.path.data.map Char.toNat)
               packageName := packagePart c3Second.path }]) ∧
      ((processAllCore (initialState 2) [(0, c3First), (1, c3Second)]).resultPointers.map
          ResultPointer.ranking = [1 / 2, 109 / 125] ∧
        ((processAllCore (initialState 2) [(0, c3First), (1, c3Second)]).results.take 2).map
          Result.path = ["pkgX_bar.c", "pkgX_foo.c"])) ∧
      (0:ℚ) < ({ initialState 2 with firstPathRank := 4 / 5 } : QueryState).firstPathRank :=
  ⟨C3_ranking_combination_amended { initialState 2 with firstPathRank := 4 / 5 } 1 c3Second,
    by decide⟩

/-! ## Claim C10: the package prefix and the underscore precondition -/

/-- **C10.**  `storeResult` is defined exactly when the result path contains
an underscore: `strings.Index` returns a negative slice bound otherwise and
the call dies.  When defined, the pointer it appends carries as package name
the prefix of the path up to the first underscore. -/
theorem C10_package_underscore (s : QueryState) (b : ℕ) (r : Result) :
    ((storeResult s b r).isSome = true ↔ '_' ∈ r.path.data) ∧
      ('_' ∉ r.path.data → goIndexUnderscore r.path < 0) ∧
      (∀ s', storeResult s b r = some s' →
        s'.resultPointers.getLast? = some
          { backendidx := b
            ranking := (obsRes s r).ranking
            pathHash := fnv64 (r.path.data.map Char.toNat)
            packageName := ⟨r.path.data.takeWhile (· ≠ '_')⟩ }) := by
  refine ⟨?_, ?_, ?_⟩
  · unfold storeResult
    rw [goPackageOf_eq]
    by_cases h : '_' ∈ r.path.data <;> simp [h]
  · intro h
    unfold goIndexUnderscore
    rw [goIndexAux_of_not_mem h]
    norm_num
  · intro s' hs'
    unfold storeResult at hs'
    rw [goPackageOf_eq] at hs'
    by_cases h : '_' ∈ r.path.data
    · rw [if_pos h] at hs'
      cases hs'
      rw [storeResultCore_pointers, List.getLast?_concat]
      rfl
    · rw [if_neg h] at hs'
      cases hs'

/-- Witness for C10 on a concrete call: path `pkgA_one.c`, package `pkgA`. -/
theorem C10_package_underscore_witness :
    ((storeResult (initialState 1) 0 { path := "pkgA_one.c", ranking := mkRat 1 2 }).isSome = true ↔
        '_' ∈ "pkgA_one.c".data) ∧
      ('_' ∉ "pkgA_one.c".data → goIndexUnderscore "pkgA_one.c" < 0) ∧
      (∀ s', storeResult (initialState 1) 0 { path := "pkgA_one.c", ranking := mkRat 1 2 } = some s' →
        s'.resultPointers.getLast? = some
          { backendidx := 0
            ranking := (obsRes (initialState 1) { path := "pkgA_one.c", ranking := mkRat 1 2 }).ranking
            pathHash := fnv64 ("pkgA_one.c".data.map Char.toNat)
            packageName := ⟨"pkgA_one.c".data.takeWhile (· ≠ '_')⟩ }) :=
  C10_package_underscore (initialState 1) 0 { path := "pkgA_one.c", ranking := mkRat 1 2 }

set_option maxRecDepth 40000 in
/-- Witness for the amended C1 theorem on the concrete run `smallArrivals`. -/
theorem C1_top10_buffer_amended_witness :
    (∀ p ∈ smallArrivals, '_' ∈ p.2.path.data) ∧
      (observedResults (initialState 2) smallArrivals).Pairwise
        (fun a c => a.ranking ≠ c.ranking) ∧
      (∀ y ∈ observedResults (initialState 2) smallArrivals, 0 < y.ranking) ∧
      (processAll (initialState 2) smallArrivals =
          some (processAllCore (initialState 2) smallArrivals) ∧
        (processAllCore (initialState 2) smallArrivals).results =
          bufferSpec (observedResults (initialState 2) smallArrivals)) :=
  ⟨by decide, by decide, by decide,
    C1_top10_buffer_amended 2 smallArrivals (by decide) (by decide) (by decide)⟩

end DcsQM
